import Mathlib

/-!
# NebulaVault — shallow embedding and verification

A shallow embedding of the `NebulaVault` confidential staking contract
(`src/deploy/deploy.ts`, Solidity part) and proofs of the specified
properties.

Ciphertexts (`euint64`) are modelled as handles (natural numbers) into an
FHE store mapping each handle to its 64-bit plaintext value, together with
an access-control list recording which principal may decrypt which handle.
Handle `0` is the reserved "never written" zero handle (the default value
of a Solidity `euint64` storage slot), which decrypts to `0`.

The external collaborators (the `FHESafeMath` library and the ERC7984
token contracts) are not part of the repository's sources; they are
modelled from the specification (§4.1 and §6) where needed.
-/

namespace NebulaVault

/-- 64-bit modulus for `euint64` plaintexts. -/
def W64 : Nat := 2 ^ 64

/-- Principals (Ethereum addresses) are modelled as naturals. -/
abbrev Addr := Nat

/-- The vault contract's own address (`address(this)`). -/
def vaultAddr : Addr := 0

/-- `enum Asset { METH, MUSDT }` from the contract. -/
inductive Asset where
  | METH
  | MUSDT
deriving DecidableEq, Repr

/-- The token contract address associated with an asset
(mirrors `_getToken`; the two immutables are distinct, nonzero addresses
wired at deployment). -/
def tokenAddr : Asset → Addr
  | Asset.METH => 1
  | Asset.MUSDT => 2

/-- The FHE coprocessor state: a fresh-handle counter, the plaintext
value of every allocated handle, and the access-control list
(`acl h p = true` iff principal `p` may decrypt handle `h`). -/
structure FheState where
  next : Nat
  val : Nat → Nat
  acl : Nat → Addr → Bool

/-- Initial FHE state: handle `0` is reserved (value `0`), no grants. -/
def initialFhe : FheState :=
  { next := 1, val := fun _ => 0, acl := fun _ _ => false }

namespace FheState

/-- Allocate a fresh handle carrying plaintext `v` (already reduced mod 2^64
by the caller). Returns the handle and the new state. -/
def alloc (s : FheState) (v : Nat) : Nat × FheState :=
  (s.next,
   { next := s.next + 1,
     val := Function.update s.val s.next v,
     acl := s.acl })

/-- `FHE.allow(handle, principal)`: grant `p` decrypt permission on `h`. -/
def allow (s : FheState) (h : Nat) (p : Addr) : FheState :=
  { s with acl := fun h2 p2 => if h2 = h ∧ p2 = p then true else s.acl h2 p2 }

/-- Modelled from the spec (§4.1): `FHESafeMath.tryIncrease`, the overflow-
safe encrypted increase of the `FHESafeMath` library, which is an external
dependency not present in the repository sources. `ok` reports whether
`current + delta` stays in the 64-bit range; the result ciphertext is the
(wrapping) sum, "the new value to store unconditionally", allocated fresh. -/
def tryIncrease (s : FheState) (current delta : Nat) : (Bool × Nat) × FheState :=
  let ok := decide (current + delta < W64)
  let (h, s2) := s.alloc ((current + delta) % W64)
  ((ok, h), s2)

/-- Modelled from the spec (§4.1): `FHESafeMath.tryDecrease`, the underflow-
safe encrypted decrease of the `FHESafeMath` library (external dependency):
`ok = delta ≤ current` and the result is `select(ok, current - delta,
current)`, allocated fresh. -/
def tryDecrease (s : FheState) (current delta : Nat) : (Bool × Nat) × FheState :=
  let ok := decide (delta ≤ current)
  let (h, s2) := s.alloc (if delta ≤ current then current - delta else current)
  ((ok, h), s2)

end FheState

/-- The vault's storage: the FHE state plus the contract's storage slots.
`_methStakes` / `_musdtStakes` map an account to the handle of its
encrypted stake; `_totalMethStaked` / `_totalMusdtStaked` hold the handles
of the encrypted totals. A slot that was never written holds handle `0`. -/
structure VaultState where
  fhe : FheState
  methStakes : Addr → Nat
  musdtStakes : Addr → Nat
  totalMethStaked : Nat
  totalMusdtStaked : Nat

/-- The vault's state right after construction. -/
def initialVault : VaultState :=
  { fhe := initialFhe,
    methStakes := fun _ => 0,
    musdtStakes := fun _ => 0,
    totalMethStaked := 0,
    totalMusdtStaked := 0 }

namespace VaultState

/-- `_getStake(asset, account)`: the stored stake handle. -/
def getStakeHandle (s : VaultState) (asset : Asset) (account : Addr) : Nat :=
  match asset with
  | Asset.METH => s.methStakes account
  | Asset.MUSDT => s.musdtStakes account

/-- The plaintext the stored stake handle decrypts to. -/
def stakeVal (s : VaultState) (asset : Asset) (account : Addr) : Nat :=
  s.fhe.val (s.getStakeHandle asset account)

/-- `getTotalStaked(asset)`: the stored total handle. -/
def getTotalHandle (s : VaultState) (asset : Asset) : Nat :=
  match asset with
  | Asset.METH => s.totalMethStaked
  | Asset.MUSDT => s.totalMusdtStaked

/-- The plaintext the stored total handle decrypts to. -/
def totalVal (s : VaultState) (asset : Asset) : Nat :=
  s.fhe.val (s.getTotalHandle asset)

/-- Replace the stored stake handle for `(asset, account)`. -/
def setStakeHandle (s : VaultState) (asset : Asset) (account : Addr) (h : Nat) :
    VaultState :=
  match asset with
  | Asset.METH => { s with methStakes := Function.update s.methStakes account h }
  | Asset.MUSDT => { s with musdtStakes := Function.update s.musdtStakes account h }

/-- Replace the stored total handle for `asset`. -/
def setTotalHandle (s : VaultState) (asset : Asset) (h : Nat) : VaultState :=
  match asset with
  | Asset.METH => { s with totalMethStaked := h }
  | Asset.MUSDT => { s with totalMusdtStaked := h }

/-- `_updateStakeStorage(asset, account, value)`:
`FHE.allowThis(value); FHE.allow(value, account);` then write the slot. -/
def updateStakeStorage (s : VaultState) (asset : Asset) (account : Addr) (h : Nat) :
    VaultState :=
  let fhe2 := (s.fhe.allow h vaultAddr).allow h account
  setStakeHandle { s with fhe := fhe2 } asset account h

/-- `_increaseStake(asset, account, amount)`: read the current stake,
apply `FHESafeMath.tryIncrease` discarding the success flag, store the
updated handle through `_updateStakeStorage`. `amt` is the plaintext of
the `amount` ciphertext. -/
def increaseStake (s : VaultState) (asset : Asset) (account : Addr) (amt : Nat) :
    VaultState :=
  let current := s.stakeVal asset account
  let ((_, h), fhe2) := s.fhe.tryIncrease current amt
  updateStakeStorage { s with fhe := fhe2 } asset account h

/-- `_decreaseStake(asset, account, amount)`: read the current stake and
apply `FHESafeMath.tryDecrease`; returns `(success, updated-handle)`
without writing storage. -/
def decreaseStake (s : VaultState) (asset : Asset) (account : Addr) (amt : Nat) :
    (Bool × Nat) × VaultState :=
  let current := s.stakeVal asset account
  let ((ok, h), fhe2) := s.fhe.tryDecrease current amt
  ((ok, h), { s with fhe := fhe2 })

/-- `_increaseTotal(asset, amount)`: `tryIncrease` on the stored total
(success flag discarded), `FHE.allowThis(updated)`, store the handle. -/
def increaseTotal (s : VaultState) (asset : Asset) (amt : Nat) : VaultState :=
  let ((_, h), fhe2) := s.fhe.tryIncrease (s.totalVal asset) amt
  setTotalHandle { s with fhe := fhe2.allow h vaultAddr } asset h

/-- `_decreaseTotal(asset, amount)`: `tryDecrease` on the stored total
(success flag discarded), `FHE.allowThis(updated)`, store the handle. -/
def decreaseTotal (s : VaultState) (asset : Asset) (amt : Nat) : VaultState :=
  let ((_, h), fhe2) := s.fhe.tryDecrease (s.totalVal asset) amt
  setTotalHandle { s with fhe := fhe2.allow h vaultAddr } asset h

end VaultState

/-- The contract's revert reasons relevant to `stake` / `unstake`. -/
inductive VaultError where
  | OperatorMissing
  | InvalidProof
deriving DecidableEq, Repr

/-- The state-mutating body of `stake` once the operator check and the
ciphertext/proof validation have passed (lines 94–102 of the contract).
`req` is the plaintext of the external ciphertext; `moved` is the plaintext
of the `transferred` ciphertext returned by the token's
`confidentialTransferFrom` (ground truth, possibly different from `req`). -/
def stakeBody (s : VaultState) (caller : Addr) (asset : Asset)
    (req : Nat) (moved : Nat) : VaultState :=
  -- euint64 amount = FHE.fromExternal(encryptedAmount, inputProof);
  let (hAmt, fhe1) := s.fhe.alloc (req % W64)
  -- FHE.allow(amount, address(token));
  let fhe2 := fhe1.allow hAmt (tokenAddr asset)
  -- euint64 transferred = token.confidentialTransferFrom(...);
  let (_, fhe3) := fhe2.alloc (moved % W64)
  let s1 : VaultState := { s with fhe := fhe3 }
  -- _increaseStake(asset, msg.sender, transferred);
  let s2 := s1.increaseStake asset caller (moved % W64)
  -- _increaseTotal(asset, transferred);
  s2.increaseTotal asset (moved % W64)

/-- `stake(asset, encryptedAmount, inputProof)`.
`isOp` is the result of `token.isOperator(msg.sender, address(this))`;
`proofOk` is whether `FHE.fromExternal` accepts the ciphertext/proof pair.
The operator check precedes ciphertext validation, as in the source. -/
def stakeFn (s : VaultState) (caller : Addr) (asset : Asset)
    (isOp : Bool) (proofOk : Bool) (req : Nat) (moved : Nat) :
    Except VaultError VaultState :=
  if !isOp then
    Except.error VaultError.OperatorMissing
  else if !proofOk then
    Except.error VaultError.InvalidProof
  else
    Except.ok (stakeBody s caller asset req moved)

/-- The plaintext of `withdrawAmount = FHE.select(canWithdraw, requested, 0)`
for an `unstake(asset, req)` call by `caller` in state `s`: the requested
amount when the stake suffices, zero otherwise. -/
def withdrawValOf (s : VaultState) (caller : Addr) (asset : Asset) (req : Nat) : Nat :=
  if req % W64 ≤ s.stakeVal asset caller then req % W64 else 0

/-- The state-mutating body of `unstake` once the ciphertext/proof
validation has passed (lines 109–120 of the contract). `req` is the
plaintext of the external ciphertext; `sent` is the plaintext of the
ciphertext returned by the token's `confidentialTransfer` (ground truth,
possibly different from the amount the vault asked it to send). -/
def unstakeBody (s : VaultState) (caller : Addr) (asset : Asset)
    (req : Nat) (sent : Nat) : VaultState :=
  -- euint64 requested = FHE.fromExternal(encryptedAmount, inputProof);
  let (_, fhe1) := s.fhe.alloc (req % W64)
  let s1 : VaultState := { s with fhe := fhe1 }
  -- (ebool canWithdraw, euint64 updatedStake) = _decreaseStake(...);
  let ((_, hUpd), s2) := s1.decreaseStake asset caller (req % W64)
  -- euint64 withdrawAmount = FHE.select(canWithdraw, requested, FHE.asEuint64(0));
  let (hW, fhe2) := s2.fhe.alloc (withdrawValOf s caller asset req)
  -- FHE.allow(withdrawAmount, address(token));
  let fhe3 := fhe2.allow hW (tokenAddr asset)
  -- euint64 sent = token.confidentialTransfer(msg.sender, withdrawAmount);
  let (_, fhe4) := fhe3.alloc (sent % W64)
  let s3 : VaultState := { s2 with fhe := fhe4 }
  -- _updateStakeStorage(asset, msg.sender, updatedStake);
  let s4 := s3.updateStakeStorage asset caller hUpd
  -- _decreaseTotal(asset, sent);
  s4.decreaseTotal asset (sent % W64)

/-- `unstake(asset, encryptedAmount, inputProof)`.
There is no operator check on this path. -/
def unstakeFn (s : VaultState) (caller : Addr) (asset : Asset)
    (proofOk : Bool) (req : Nat) (sent : Nat) :
    Except VaultError VaultState :=
  if !proofOk then
    Except.error VaultError.InvalidProof
  else
    Except.ok (unstakeBody s caller asset req sent)

/-- One external call to the vault, with the environment's behaviour
(operator approval, proof validity, the token's reported moved/sent
amounts) recorded in the operation. -/
inductive Op where
  | stake (caller : Addr) (asset : Asset) (isOp : Bool) (proofOk : Bool)
      (req : Nat) (moved : Nat)
  | unstake (caller : Addr) (asset : Asset) (proofOk : Bool)
      (req : Nat) (sent : Nat)
deriving DecidableEq, Repr

/-- Execute one operation; a reverted call leaves the state unchanged. -/
def step (s : VaultState) (op : Op) : VaultState :=
  match op with
  | Op.stake caller asset isOp proofOk req moved =>
    match stakeFn s caller asset isOp proofOk req moved with
    | Except.ok s2 => s2
    | Except.error _ => s
  | Op.unstake caller asset proofOk req sent =>
    match unstakeFn s caller asset proofOk req sent with
    | Except.ok s2 => s2
    | Except.error _ => s

/-- Execute a sequence of operations from a state. -/
def runOps (s : VaultState) (ops : List Op) : VaultState :=
  ops.foldl step s

/-! ## Well-formedness of reachable states -/

/-- Well-formedness of a vault state: the fresh-handle counter is past the
reserved handle `0`, handle `0` decrypts to `0`, every stored handle has
been allocated, no grant exists on a not-yet-allocated handle, and every
plaintext is a 64-bit value. -/
def Wf (s : VaultState) : Prop :=
  1 ≤ s.fhe.next ∧
  s.fhe.val 0 = 0 ∧
  (∀ asset a, s.getStakeHandle asset a < s.fhe.next) ∧
  (∀ asset, s.getTotalHandle asset < s.fhe.next) ∧
  (∀ h p, s.fhe.next ≤ h → s.fhe.acl h p = false) ∧
  (∀ h, s.fhe.val h < W64)

theorem wf_initialVault : Wf initialVault := by
  refine ⟨le_refl 1, rfl, ?_, ?_, ?_, ?_⟩
  · intro asset a; cases asset <;> simp [initialVault, VaultState.getStakeHandle, initialFhe]
  · intro asset; cases asset <;> simp [initialVault, VaultState.getTotalHandle, initialFhe]
  · intro h p _; rfl
  · intro h; simp [initialVault, initialFhe, W64]

/-! ## Basic lemmas about the FHE state primitives -/

namespace FheState

theorem allow_val (s : FheState) (h : Nat) (p : Addr) :
    (s.allow h p).val = s.val := rfl

theorem allow_next (s : FheState) (h : Nat) (p : Addr) :
    (s.allow h p).next = s.next := rfl

theorem allow_acl (s : FheState) (h : Nat) (p : Addr) (h2 : Nat) (p2 : Addr) :
    (s.allow h p).acl h2 p2 = if h2 = h ∧ p2 = p then true else s.acl h2 p2 := rfl

theorem alloc_fst (s : FheState) (v : Nat) : (s.alloc v).1 = s.next := rfl

theorem alloc_next (s : FheState) (v : Nat) : (s.alloc v).2.next = s.next + 1 := rfl

theorem alloc_acl (s : FheState) (v : Nat) : (s.alloc v).2.acl = s.acl := rfl

theorem alloc_val (s : FheState) (v : Nat) (h : Nat) :
    (s.alloc v).2.val h = if h = s.next then v else s.val h := by
  by_cases hc : h = s.next <;> simp [alloc, Function.update, hc]

end FheState

/-! ## Characterization lemmas for the private vault operations -/

namespace VaultState

theorem updateStakeStorage_fhe_val (s : VaultState) (a : Asset) (c : Addr) (h : Nat) :
    (s.updateStakeStorage a c h).fhe.val = s.fhe.val := by
  cases a <;> rfl

theorem updateStakeStorage_fhe_next (s : VaultState) (a : Asset) (c : Addr) (h : Nat) :
    (s.updateStakeStorage a c h).fhe.next = s.fhe.next := by
  cases a <;> rfl

theorem updateStakeStorage_fhe_acl (s : VaultState) (a : Asset) (c : Addr) (h : Nat)
    (h2 : Nat) (p : Addr) :
    (s.updateStakeStorage a c h).fhe.acl h2 p
      = if h2 = h ∧ (p = vaultAddr ∨ p = c) then true else s.fhe.acl h2 p := by
  cases a <;>
    · show (((s.fhe.allow h vaultAddr).allow h c)).acl h2 p = _
      rw [FheState.allow_acl, FheState.allow_acl]
      by_cases h1 : h2 = h
      · subst h1
        by_cases hp : p = c <;> by_cases hq : p = vaultAddr <;> simp [hp, hq]
      · simp [h1]

theorem updateStakeStorage_getStakeHandle (s : VaultState) (a : Asset) (c : Addr) (h : Nat)
    (a2 : Asset) (c2 : Addr) :
    (s.updateStakeStorage a c h).getStakeHandle a2 c2
      = if a2 = a ∧ c2 = c then h else s.getStakeHandle a2 c2 := by
  cases a <;> cases a2 <;>
    simp [updateStakeStorage, setStakeHandle, getStakeHandle, Function.update_apply]

theorem updateStakeStorage_getTotalHandle (s : VaultState) (a : Asset) (c : Addr) (h : Nat)
    (a2 : Asset) :
    (s.updateStakeStorage a c h).getTotalHandle a2 = s.getTotalHandle a2 := by
  cases a <;> cases a2 <;> rfl

theorem setFhe_getStakeHandle (s : VaultState) (f : FheState) (a : Asset) (c : Addr) :
    ({ s with fhe := f } : VaultState).getStakeHandle a c = s.getStakeHandle a c := by
  cases a <;> rfl

theorem setFhe_getTotalHandle (s : VaultState) (f : FheState) (a : Asset) :
    ({ s with fhe := f } : VaultState).getTotalHandle a = s.getTotalHandle a := by
  cases a <;> rfl

theorem increaseStake_eq (s : VaultState) (a : Asset) (c : Addr) (amt : Nat) :
    s.increaseStake a c amt
      = updateStakeStorage
          { s with fhe := (s.fhe.alloc ((s.stakeVal a c + amt) % W64)).2 }
          a c s.fhe.next := rfl

theorem decreaseStake_eq (s : VaultState) (a : Asset) (c : Addr) (amt : Nat) :
    s.decreaseStake a c amt
      = ((decide (amt ≤ s.stakeVal a c), s.fhe.next),
         { s with fhe := (s.fhe.alloc
             (if amt ≤ s.stakeVal a c then s.stakeVal a c - amt
              else s.stakeVal a c)).2 }) := rfl

theorem increaseTotal_eq (s : VaultState) (a : Asset) (amt : Nat) :
    s.increaseTotal a amt
      = setTotalHandle
          { s with fhe :=
              ((s.fhe.alloc ((s.totalVal a + amt) % W64)).2.allow s.fhe.next vaultAddr) }
          a s.fhe.next := rfl

theorem decreaseTotal_eq (s : VaultState) (a : Asset) (amt : Nat) :
    s.decreaseTotal a amt
      = setTotalHandle
          { s with fhe :=
              ((s.fhe.alloc
                (if amt ≤ s.totalVal a then s.totalVal a - amt
                 else s.totalVal a)).2.allow s.fhe.next vaultAddr) }
          a s.fhe.next := rfl

theorem setTotalHandle_fhe (s : VaultState) (a : Asset) (h : Nat) :
    (s.setTotalHandle a h).fhe = s.fhe := by
  cases a <;> rfl

theorem setTotalHandle_getStakeHandle (s : VaultState) (a : Asset) (h : Nat)
    (a2 : Asset) (c2 : Addr) :
    (s.setTotalHandle a h).getStakeHandle a2 c2 = s.getStakeHandle a2 c2 := by
  cases a <;> cases a2 <;> rfl

theorem setTotalHandle_getTotalHandle (s : VaultState) (a : Asset) (h : Nat) (a2 : Asset) :
    (s.setTotalHandle a h).getTotalHandle a2
      = if a2 = a then h else s.getTotalHandle a2 := by
  cases a <;> cases a2 <;> simp [setTotalHandle, getTotalHandle]

end VaultState

/-! ## Characterization of the `stake` body -/

theorem stakeBody_eq (s : VaultState) (c : Addr) (a : Asset) (req moved : Nat) :
    stakeBody s c a req moved
      = (({ s with fhe :=
            (((s.fhe.alloc (req % W64)).2.allow s.fhe.next (tokenAddr a)).alloc
              (moved % W64)).2 } : VaultState).increaseStake a c
          (moved % W64)).increaseTotal a (moved % W64) := rfl

theorem stakeBody_fhe_next (s : VaultState) (c : Addr) (a : Asset) (req moved : Nat) :
    (stakeBody s c a req moved).fhe.next = s.fhe.next + 4 := by
  cases a <;>
    simp [stakeBody, VaultState.increaseStake, VaultState.increaseTotal,
      VaultState.updateStakeStorage, VaultState.setStakeHandle, VaultState.setTotalHandle,
      VaultState.getStakeHandle, VaultState.stakeVal, VaultState.totalVal,
      VaultState.getTotalHandle, FheState.tryIncrease, FheState.alloc, FheState.allow]

theorem stakeBody_getStakeHandle (s : VaultState) (c : Addr) (a : Asset) (req moved : Nat)
    (a2 : Asset) (c2 : Addr) :
    (stakeBody s c a req moved).getStakeHandle a2 c2
      = if a2 = a ∧ c2 = c then s.fhe.next + 2 else s.getStakeHandle a2 c2 := by
  cases a <;> cases a2 <;>
    simp [stakeBody, VaultState.increaseStake, VaultState.increaseTotal,
      VaultState.updateStakeStorage, VaultState.setStakeHandle, VaultState.setTotalHandle,
      VaultState.getStakeHandle, VaultState.stakeVal, VaultState.totalVal,
      VaultState.getTotalHandle, FheState.tryIncrease, FheState.alloc, FheState.allow,
      Function.update_apply]

theorem stakeBody_getTotalHandle (s : VaultState) (c : Addr) (a : Asset) (req moved : Nat)
    (a2 : Asset) :
    (stakeBody s c a req moved).getTotalHandle a2
      = if a2 = a then s.fhe.next + 3 else s.getTotalHandle a2 := by
  cases a <;> cases a2 <;>
    simp [stakeBody, VaultState.increaseStake, VaultState.increaseTotal,
      VaultState.updateStakeStorage, VaultState.setStakeHandle, VaultState.setTotalHandle,
      VaultState.getStakeHandle, VaultState.stakeVal, VaultState.totalVal,
      VaultState.getTotalHandle, FheState.tryIncrease, FheState.alloc, FheState.allow,
      Function.update_apply]

theorem stakeBody_fhe_val (s : VaultState) (c : Addr) (a : Asset) (req moved : Nat)
    (hs : s.getStakeHandle a c < s.fhe.next)
    (ht : s.getTotalHandle a < s.fhe.next) (h : Nat) :
    (stakeBody s c a req moved).fhe.val h
      = if h = s.fhe.next + 3 then (s.totalVal a + moved % W64) % W64
        else if h = s.fhe.next + 2 then (s.stakeVal a c + moved % W64) % W64
        else if h = s.fhe.next + 1 then moved % W64
        else if h = s.fhe.next then req % W64
        else s.fhe.val h := by
  cases a <;>
    simp only [stakeBody, VaultState.increaseStake, VaultState.increaseTotal,
      VaultState.updateStakeStorage, VaultState.setStakeHandle, VaultState.setTotalHandle,
      VaultState.getStakeHandle, VaultState.stakeVal, VaultState.totalVal,
      VaultState.getTotalHandle, FheState.tryIncrease, FheState.alloc, FheState.allow,
      Function.update_apply] at hs ht ⊢ <;>
    split_ifs <;> first | rfl | omega

theorem stakeBody_fhe_acl (s : VaultState) (c : Addr) (a : Asset) (req moved : Nat)
    (h2 : Nat) (p : Addr) :
    (stakeBody s c a req moved).fhe.acl h2 p
      = if h2 = s.fhe.next ∧ p = tokenAddr a then true
        else if h2 = s.fhe.next + 2 ∧ (p = vaultAddr ∨ p = c) then true
        else if h2 = s.fhe.next + 3 ∧ p = vaultAddr then true
        else s.fhe.acl h2 p := by
  cases a <;>
    simp only [stakeBody, VaultState.increaseStake, VaultState.increaseTotal,
      VaultState.updateStakeStorage, VaultState.setStakeHandle, VaultState.setTotalHandle,
      VaultState.getStakeHandle, VaultState.stakeVal, VaultState.totalVal,
      VaultState.getTotalHandle, FheState.tryIncrease, FheState.alloc, FheState.allow,
      Function.update_apply] <;>
    split_ifs <;> first | rfl | tauto

/-! ## Characterization of the `unstake` body -/

theorem unstakeBody_fhe_next (s : VaultState) (c : Addr) (a : Asset) (req sent : Nat) :
    (unstakeBody s c a req sent).fhe.next = s.fhe.next + 5 := by
  cases a <;>
    simp [unstakeBody, VaultState.decreaseStake, VaultState.decreaseTotal,
      VaultState.updateStakeStorage, VaultState.setStakeHandle, VaultState.setTotalHandle,
      VaultState.getStakeHandle, VaultState.stakeVal, VaultState.totalVal,
      VaultState.getTotalHandle, FheState.tryDecrease, FheState.alloc, FheState.allow]

theorem unstakeBody_getStakeHandle (s : VaultState) (c : Addr) (a : Asset) (req sent : Nat)
    (a2 : Asset) (c2 : Addr) :
    (unstakeBody s c a req sent).getStakeHandle a2 c2
      = if a2 = a ∧ c2 = c then s.fhe.next + 1 else s.getStakeHandle a2 c2 := by
  cases a <;> cases a2 <;>
    simp [unstakeBody, VaultState.decreaseStake, VaultState.decreaseTotal,
      VaultState.updateStakeStorage, VaultState.setStakeHandle, VaultState.setTotalHandle,
      VaultState.getStakeHandle, VaultState.stakeVal, VaultState.totalVal,
      VaultState.getTotalHandle, FheState.tryDecrease, FheState.alloc, FheState.allow,
      Function.update_apply]

theorem unstakeBody_getTotalHandle (s : VaultState) (c : Addr) (a : Asset) (req sent : Nat)
    (a2 : Asset) :
    (unstakeBody s c a req sent).getTotalHandle a2
      = if a2 = a then s.fhe.next + 4 else s.getTotalHandle a2 := by
  cases a <;> cases a2 <;>
    simp [unstakeBody, VaultState.decreaseStake, VaultState.decreaseTotal,
      VaultState.updateStakeStorage, VaultState.setStakeHandle, VaultState.setTotalHandle,
      VaultState.getStakeHandle, VaultState.stakeVal, VaultState.totalVal,
      VaultState.getTotalHandle, FheState.tryDecrease, FheState.alloc, FheState.allow,
      Function.update_apply]

set_option maxHeartbeats 2000000 in
theorem unstakeBody_fhe_val (s : VaultState) (c : Addr) (a : Asset) (req sent : Nat)
    (hs : s.getStakeHandle a c < s.fhe.next)
    (ht : s.getTotalHandle a < s.fhe.next) (h : Nat) :
    (unstakeBody s c a req sent).fhe.val h
      = if h = s.fhe.next + 4 then
          (if sent % W64 ≤ s.totalVal a then s.totalVal a - sent % W64 else s.totalVal a)
        else if h = s.fhe.next + 3 then sent % W64
        else if h = s.fhe.next + 2 then withdrawValOf s c a req
        else if h = s.fhe.next + 1 then
          (if req % W64 ≤ s.stakeVal a c then s.stakeVal a c - req % W64
           else s.stakeVal a c)
        else if h = s.fhe.next then req % W64
        else s.fhe.val h := by
  cases a <;>
    simp only [unstakeBody, VaultState.decreaseStake, VaultState.decreaseTotal,
      VaultState.updateStakeStorage, VaultState.setStakeHandle, VaultState.setTotalHandle,
      VaultState.getStakeHandle, VaultState.stakeVal, VaultState.totalVal,
      VaultState.getTotalHandle, FheState.tryDecrease, FheState.alloc, FheState.allow,
      Function.update_apply] at hs ht ⊢ <;>
    split_ifs <;> first | rfl | omega

theorem unstakeBody_fhe_acl (s : VaultState) (c : Addr) (a : Asset) (req sent : Nat)
    (h2 : Nat) (p : Addr) :
    (unstakeBody s c a req sent).fhe.acl h2 p
      = if h2 = s.fhe.next + 1 ∧ (p = vaultAddr ∨ p = c) then true
        else if h2 = s.fhe.next + 2 ∧ p = tokenAddr a then true
        else if h2 = s.fhe.next + 4 ∧ p = vaultAddr then true
        else s.fhe.acl h2 p := by
  cases a <;>
    simp only [unstakeBody, VaultState.decreaseStake, VaultState.decreaseTotal,
      VaultState.updateStakeStorage, VaultState.setStakeHandle, VaultState.setTotalHandle,
      VaultState.getStakeHandle, VaultState.stakeVal, VaultState.totalVal,
      VaultState.getTotalHandle, FheState.tryDecrease, FheState.alloc, FheState.allow,
      Function.update_apply] <;>
    split_ifs <;> first | rfl | tauto

/-! ## Preservation of well-formedness -/

theorem W64_pos : 0 < W64 := by
  show 0 < 2 ^ 64
  positivity

theorem wf_stakeBody (s : VaultState) (c : Addr) (a : Asset) (req moved : Nat)
    (hwf : Wf s) : Wf (stakeBody s c a req moved) := by
  obtain ⟨h1, h0, hsk, htt, hacl, hval⟩ := hwf
  refine ⟨?_, ?_, ?_, ?_, ?_, ?_⟩
  · rw [stakeBody_fhe_next]; omega
  · rw [stakeBody_fhe_val s c a req moved (hsk a c) (htt a)]
    have : (0:Nat) < s.fhe.next := h1
    split_ifs <;> first | omega | exact h0 | exact False.elim (by assumption)
  · intro a2 c2
    rw [stakeBody_getStakeHandle, stakeBody_fhe_next]
    have := hsk a2 c2
    split_ifs <;> omega
  · intro a2
    rw [stakeBody_getTotalHandle, stakeBody_fhe_next]
    have := htt a2
    split_ifs <;> omega
  · intro h p hge
    rw [stakeBody_fhe_next] at hge
    rw [stakeBody_fhe_acl]
    have := hacl h p (by omega)
    split_ifs <;> first | omega | exact this
  · intro h
    rw [stakeBody_fhe_val s c a req moved (hsk a c) (htt a)]
    have := hval h
    have hW : 0 < W64 := W64_pos
    split_ifs <;> first | exact Nat.mod_lt _ hW | exact this

theorem wf_unstakeBody (s : VaultState) (c : Addr) (a : Asset) (req sent : Nat)
    (hwf : Wf s) : Wf (unstakeBody s c a req sent) := by
  obtain ⟨h1, h0, hsk, htt, hacl, hval⟩ := hwf
  refine ⟨?_, ?_, ?_, ?_, ?_, ?_⟩
  · rw [unstakeBody_fhe_next]; omega
  · rw [unstakeBody_fhe_val s c a req sent (hsk a c) (htt a)]
    have : (0:Nat) < s.fhe.next := h1
    split_ifs <;> first | omega | exact h0 | exact False.elim (by assumption)
  · intro a2 c2
    rw [unstakeBody_getStakeHandle, unstakeBody_fhe_next]
    have := hsk a2 c2
    split_ifs <;> omega
  · intro a2
    rw [unstakeBody_getTotalHandle, unstakeBody_fhe_next]
    have := htt a2
    split_ifs <;> omega
  · intro h p hge
    rw [unstakeBody_fhe_next] at hge
    rw [unstakeBody_fhe_acl]
    have := hacl h p (by omega)
    split_ifs <;> first | omega | exact this
  · intro h
    rw [unstakeBody_fhe_val s c a req sent (hsk a c) (htt a)]
    have hW : 0 < W64 := W64_pos
    have h2 := hval (s.getStakeHandle a c)
    have h3 := hval (s.getTotalHandle a)
    have := hval h
    unfold withdrawValOf
    split_ifs <;>
      first
        | exact Nat.mod_lt _ hW
        | omega
        | exact this
        | (exact lt_of_le_of_lt (Nat.sub_le _ _) h3)
        | (exact lt_of_le_of_lt (Nat.sub_le _ _) h2)
        | exact h3
        | exact h2

theorem wf_step (s : VaultState) (op : Op) (hwf : Wf s) : Wf (step s op) := by
  cases op with
  | stake c a isOp proofOk req moved =>
    cases isOp <;> cases proofOk <;>
      simp only [step, stakeFn, Bool.not_true, Bool.not_false, if_true, if_false] <;>
      first
        | exact hwf
        | exact wf_stakeBody s c a req moved hwf
  | unstake c a proofOk req sent =>
    cases proofOk <;>
      simp only [step, unstakeFn, Bool.not_true, Bool.not_false, if_true, if_false] <;>
      first
        | exact hwf
        | exact wf_unstakeBody s c a req sent hwf

theorem wf_runOps (s : VaultState) (ops : List Op) (hwf : Wf s) : Wf (runOps s ops) := by
  induction ops generalizing s with
  | nil => exact hwf
  | cons op rest ih => exact ih (step s op) (wf_step s op hwf)

/-! ## Value-level corollaries -/

theorem stakeBody_stakeVal (s : VaultState) (c : Addr) (a : Asset) (req moved : Nat)
    (hwf : Wf s) :
    (stakeBody s c a req moved).stakeVal a c
      = (s.stakeVal a c + moved % W64) % W64 := by
  obtain ⟨-, -, hsk, htt, -, -⟩ := hwf
  rw [VaultState.stakeVal, stakeBody_getStakeHandle,
    stakeBody_fhe_val s c a req moved (hsk a c) (htt a)]
  simp

theorem stakeBody_totalVal (s : VaultState) (c : Addr) (a : Asset) (req moved : Nat)
    (hwf : Wf s) :
    (stakeBody s c a req moved).totalVal a
      = (s.totalVal a + moved % W64) % W64 := by
  obtain ⟨-, -, hsk, htt, -, -⟩ := hwf
  rw [VaultState.totalVal, stakeBody_getTotalHandle,
    stakeBody_fhe_val s c a req moved (hsk a c) (htt a)]
  simp

theorem stakeBody_stakeVal_frame (s : VaultState) (c : Addr) (a : Asset) (req moved : Nat)
    (hwf : Wf s) (a2 : Asset) (c2 : Addr) (hne : ¬(a2 = a ∧ c2 = c)) :
    (stakeBody s c a req moved).stakeVal a2 c2 = s.stakeVal a2 c2 := by
  obtain ⟨-, -, hsk, htt, -, -⟩ := hwf
  rw [VaultState.stakeVal, stakeBody_getStakeHandle,
    stakeBody_fhe_val s c a req moved (hsk a c) (htt a)]
  have := hsk a2 c2
  rw [if_neg hne]
  split_ifs <;> first | omega | rfl

theorem stakeBody_totalVal_frame (s : VaultState) (c : Addr) (a : Asset) (req moved : Nat)
    (hwf : Wf s) (a2 : Asset) (hne : a2 ≠ a) :
    (stakeBody s c a req moved).totalVal a2 = s.totalVal a2 := by
  obtain ⟨-, -, hsk, htt, -, -⟩ := hwf
  rw [VaultState.totalVal, stakeBody_getTotalHandle,
    stakeBody_fhe_val s c a req moved (hsk a c) (htt a)]
  have := htt a2
  rw [if_neg hne]
  split_ifs <;> first | omega | rfl

theorem unstakeBody_stakeVal (s : VaultState) (c : Addr) (a : Asset) (req sent : Nat)
    (hwf : Wf s) :
    (unstakeBody s c a req sent).stakeVal a c
      = if req % W64 ≤ s.stakeVal a c then s.stakeVal a c - req % W64
        else s.stakeVal a c := by
  obtain ⟨-, -, hsk, htt, -, -⟩ := hwf
  rw [VaultState.stakeVal, unstakeBody_getStakeHandle,
    unstakeBody_fhe_val s c a req sent (hsk a c) (htt a)]
  simp

theorem unstakeBody_totalVal (s : VaultState) (c : Addr) (a : Asset) (req sent : Nat)
    (hwf : Wf s) :
    (unstakeBody s c a req sent).totalVal a
      = if sent % W64 ≤ s.totalVal a then s.totalVal a - sent % W64
        else s.totalVal a := by
  obtain ⟨-, -, hsk, htt, -, -⟩ := hwf
  rw [VaultState.totalVal, unstakeBody_getTotalHandle,
    unstakeBody_fhe_val s c a req sent (hsk a c) (htt a)]
  simp

theorem unstakeBody_stakeVal_frame (s : VaultState) (c : Addr) (a : Asset) (req sent : Nat)
    (hwf : Wf s) (a2 : Asset) (c2 : Addr) (hne : ¬(a2 = a ∧ c2 = c)) :
    (unstakeBody s c a req sent).stakeVal a2 c2 = s.stakeVal a2 c2 := by
  obtain ⟨-, -, hsk, htt, -, -⟩ := hwf
  rw [VaultState.stakeVal, unstakeBody_getStakeHandle,
    unstakeBody_fhe_val s c a req sent (hsk a c) (htt a)]
  have := hsk a2 c2
  rw [if_neg hne]
  split_ifs <;> first | omega | rfl

theorem unstakeBody_totalVal_frame (s : VaultState) (c : Addr) (a : Asset) (req sent : Nat)
    (hwf : Wf s) (a2 : Asset) (hne : a2 ≠ a) :
    (unstakeBody s c a req sent).totalVal a2 = s.totalVal a2 := by
  obtain ⟨-, -, hsk, htt, -, -⟩ := hwf
  rw [VaultState.totalVal, unstakeBody_getTotalHandle,
    unstakeBody_fhe_val s c a req sent (hsk a c) (htt a)]
  have := htt a2
  rw [if_neg hne]
  split_ifs <;> first | omega | rfl

/-! ## The external confidential token, composed with the vault -/

/-- Modelled from the spec (§6): the external `ConfidentialToken`
collaborator (the ERC7984 contracts are outside this repository's
sources), reduced to its plaintext balances. -/
structure TokenState where
  balances : Addr → Nat

/-- Modelled from the spec (§6): a faithful confidential transfer. It
moves exactly the requested amount when the sender's balance suffices and
nothing otherwise, and reports the actually-moved amount. -/
def TokenState.transfer (t : TokenState) (src dst : Addr) (amt : Nat) :
    Nat × TokenState :=
  let moved := if amt ≤ t.balances src then amt else 0
  let afterSub := Function.update t.balances src (t.balances src - moved)
  (moved, { balances := Function.update afterSub dst ((afterSub dst + moved) % W64) })

/-- The vault composed with the two token contracts. -/
structure Chain where
  vault : VaultState
  meth : TokenState
  musdt : TokenState

/-- The token contract for an asset. -/
def Chain.token (ch : Chain) : Asset → TokenState
  | Asset.METH => ch.meth
  | Asset.MUSDT => ch.musdt

/-- Replace the token state for an asset. -/
def Chain.setToken (ch : Chain) : Asset → TokenState → Chain
  | Asset.METH, t => { ch with meth := t }
  | Asset.MUSDT, t => { ch with musdt := t }

/-- A full `stake` call with a faithful token: the operator check, the
proof validation, the token-side `confidentialTransferFrom` of the
validated amount from the caller to the vault, and the vault's crediting
of the reported moved amount. -/
def fullStake (ch : Chain) (caller : Addr) (a : Asset) (isOp proofOk : Bool)
    (req : Nat) : Except VaultError Chain :=
  if !isOp then
    Except.error VaultError.OperatorMissing
  else if !proofOk then
    Except.error VaultError.InvalidProof
  else
    let (moved, t2) := (ch.token a).transfer caller vaultAddr (req % W64)
    Except.ok { (ch.setToken a t2) with vault := stakeBody ch.vault caller a req moved }

/-- A full `unstake` call with a faithful token: the proof validation,
the token-side `confidentialTransfer` of the selected withdraw amount
from the vault to the caller, and the vault's bookkeeping. -/
def fullUnstake (ch : Chain) (caller : Addr) (a : Asset) (proofOk : Bool)
    (req : Nat) : Except VaultError Chain :=
  if !proofOk then
    Except.error VaultError.InvalidProof
  else
    let w := withdrawValOf ch.vault caller a req
    let (sent, t2) := (ch.token a).transfer vaultAddr caller w
    Except.ok { (ch.setToken a t2) with vault := unstakeBody ch.vault caller a req sent }

/-! ## Claim theorems -/

/-- C5: a `stake` call by a caller who has not authorized the vault as an
operator on the token fails with `OperatorMissing` and leaves the state
unchanged; since this holds for every value of `proofOk` (including an
invalid ciphertext/proof pair), the operator check precedes ciphertext
validation. -/
theorem stake_without_operator_fails (s : VaultState) (c : Addr) (a : Asset)
    (proofOk : Bool) (req moved : Nat) :
    stakeFn s c a false proofOk req moved = Except.error VaultError.OperatorMissing ∧
    step s (Op.stake c a false proofOk req moved) = s :=
  ⟨rfl, rfl⟩

/-- C7: `unstake` performs no operator-approval check: it never fails with
`OperatorMissing` for any caller, asset, proof outcome and token report,
and its only pre-state-mutation failure is ciphertext/proof validation
(`InvalidProof`). -/
theorem unstake_never_operator_missing (s : VaultState) (c : Addr) (a : Asset)
    (proofOk : Bool) (req sent : Nat) :
    unstakeFn s c a proofOk req sent ≠ Except.error VaultError.OperatorMissing ∧
    unstakeFn s c a false req sent = Except.error VaultError.InvalidProof ∧
    unstakeFn s c a true req sent = Except.ok (unstakeBody s c a req sent) := by
  refine ⟨?_, rfl, rfl⟩
  cases proofOk <;> simp [unstakeFn]

/-- C3: a successful `stake` credits both the caller's stake position and
the asset total with the amount actually moved as reported by
`confidentialTransferFrom` (`moved`, unrelated to the requested `req`),
and the deposit is always fully credited: the overflow flag of
`tryIncrease` is discarded, so no side condition on the magnitude of the
amounts appears. -/
theorem stake_credits_actually_moved (s : VaultState) (c : Addr) (a : Asset)
    (req moved : Nat) (hwf : Wf s) :
    ∃ s2, stakeFn s c a true true req moved = Except.ok s2 ∧
      s2.stakeVal a c = (s.stakeVal a c + moved % W64) % W64 ∧
      s2.totalVal a = (s.totalVal a + moved % W64) % W64 :=
  ⟨stakeBody s c a req moved, rfl,
    stakeBody_stakeVal s c a req moved hwf,
    stakeBody_totalVal s c a req moved hwf⟩

/-- Witness for C3 at a concrete input. -/
theorem stake_credits_actually_moved_witness :
    ∃ s2, stakeFn initialVault 5 Asset.METH true true 7 9 = Except.ok s2 ∧
      s2.stakeVal Asset.METH 5
        = (initialVault.stakeVal Asset.METH 5 + 9 % W64) % W64 ∧
      s2.totalVal Asset.METH
        = (initialVault.totalVal Asset.METH + 9 % W64) % W64 :=
  stake_credits_actually_moved initialVault 5 Asset.METH 7 9 wf_initialVault

/-- C4: a solvent `unstake` (requested amount at most the stored stake)
decreases the stored stake by the requested amount — for every value
`sent` the token reports as actually sent — while the asset total
decreases by the reported `sent` amount, not by the requested one. -/
theorem unstake_solvent_decreases (s : VaultState) (c : Addr) (a : Asset)
    (req sent : Nat) (hwf : Wf s)
    (hsuff : req % W64 ≤ s.stakeVal a c)
    (hsent : sent % W64 ≤ s.totalVal a) :
    ∃ s2, unstakeFn s c a true req sent = Except.ok s2 ∧
      s2.stakeVal a c = s.stakeVal a c - req % W64 ∧
      s2.totalVal a = s.totalVal a - sent % W64 := by
  refine ⟨unstakeBody s c a req sent, rfl, ?_, ?_⟩
  · rw [unstakeBody_stakeVal s c a req sent hwf, if_pos hsuff]
  · rw [unstakeBody_totalVal s c a req sent hwf, if_pos hsent]

/-- Witness for C4 at a concrete input: stake 7, then unstake 3 with the
token reporting 2 actually sent. -/
theorem unstake_solvent_decreases_witness :
    ∃ s2, unstakeFn (step initialVault (Op.stake 5 Asset.METH true true 7 7))
        5 Asset.METH true 3 2 = Except.ok s2 ∧
      s2.stakeVal Asset.METH 5
        = (step initialVault (Op.stake 5 Asset.METH true true 7 7)).stakeVal
            Asset.METH 5 - 3 % W64 ∧
      s2.totalVal Asset.METH
        = (step initialVault (Op.stake 5 Asset.METH true true 7 7)).totalVal
            Asset.METH - 2 % W64 :=
  unstake_solvent_decreases _ 5 Asset.METH 3 2
    (wf_step initialVault _ wf_initialVault) (by decide) (by decide)

/-- C1: an `unstake` requesting more than the caller's current stake does
not revert, leaves the stored stake decrypting to the same value, selects
a withdraw amount of zero, and the faithful token moves nothing: the
caller's wallet balance is unchanged. -/
theorem Chain.withVault_vault (ch : Chain) (v : VaultState) :
    ({ ch with vault := v } : Chain).vault = v := rfl

theorem Chain.withVault_token (ch : Chain) (v : VaultState) (a : Asset) :
    ({ ch with vault := v } : Chain).token a = ch.token a := by
  cases a <;> rfl

theorem Chain.setToken_token (ch : Chain) (a : Asset) (t : TokenState) :
    (ch.setToken a t).token a = t := by
  cases a <;> rfl

theorem unstake_insufficient_noop (ch : Chain) (c : Addr) (a : Asset) (req : Nat)
    (hwf : Wf ch.vault)
    (hover : ch.vault.stakeVal a c < req % W64)
    (hcb : (ch.token a).balances c < W64) :
    ∃ ch2, fullUnstake ch c a true req = Except.ok ch2 ∧
      ch2.vault.stakeVal a c = ch.vault.stakeVal a c ∧
      withdrawValOf ch.vault c a req = 0 ∧
      ((ch.token a).transfer vaultAddr c (withdrawValOf ch.vault c a req)).1 = 0 ∧
      (ch2.token a).balances c = (ch.token a).balances c := by
  have hw0 : withdrawValOf ch.vault c a req = 0 := by
    unfold withdrawValOf
    rw [if_neg (by omega)]
  have hmoved :
      ((ch.token a).transfer vaultAddr c (withdrawValOf ch.vault c a req)).1 = 0 := by
    rw [hw0]
    unfold TokenState.transfer
    simp
  refine ⟨_, rfl, ?_, hw0, hmoved, ?_⟩
  · rw [Chain.withVault_vault]
    simp only [hw0, ite_self]
    rw [unstakeBody_stakeVal ch.vault c a req 0 hwf, if_neg (by omega)]
  · rw [Chain.withVault_token, Chain.setToken_token, hw0]
    simp only [TokenState.transfer, ite_self, Nat.sub_zero, Nat.add_zero,
      Function.update_apply, if_pos rfl]
    split_ifs with h1 h2 <;>
      first
        | exact absurd trivial h1
        | (subst h2; exact Nat.mod_eq_of_lt hcb)
        | exact Nat.mod_eq_of_lt hcb

/-- A concrete chain used to witness C1: a fresh vault and an account `5`
holding 100 token units. -/
def wChain : Chain :=
  { vault := initialVault,
    meth := { balances := fun x => if x = 5 then 100 else 0 },
    musdt := { balances := fun _ => 0 } }

/-- Witness for C1 at a concrete input: account 5 holds no stake and
requests 50. -/
theorem unstake_insufficient_noop_witness :
    ∃ ch2, fullUnstake wChain 5 Asset.METH true 50 = Except.ok ch2 ∧
      ch2.vault.stakeVal Asset.METH 5 = wChain.vault.stakeVal Asset.METH 5 ∧
      withdrawValOf wChain.vault 5 Asset.METH 50 = 0 ∧
      ((wChain.token Asset.METH).transfer vaultAddr 5
        (withdrawValOf wChain.vault 5 Asset.METH 50)).1 = 0 ∧
      (ch2.token Asset.METH).balances 5 = (wChain.token Asset.METH).balances 5 :=
  unstake_insufficient_noop wChain 5 Asset.METH 50 wf_initialVault
    (by decide) (by decide)

/-- C6: staking `a` and then unstaking `a` (with a faithful token and the
amounts inside the 64-bit range) restores both the caller's stored stake
and the caller's wallet balance to their prior values. -/
theorem stake_unstake_roundtrip (ch : Chain) (c : Addr) (a : Asset) (req : Nat)
    (hwf : Wf ch.vault)
    (hc : c ≠ vaultAddr)
    (hbal : req % W64 ≤ (ch.token a).balances c)
    (hstake : ch.vault.stakeVal a c + req % W64 < W64)
    (hvw : (ch.token a).balances vaultAddr + req % W64 < W64)
    (hcw : (ch.token a).balances c < W64) :
    ∃ ch1 ch2,
      fullStake ch c a true true req = Except.ok ch1 ∧
      fullUnstake ch1 c a true req = Except.ok ch2 ∧
      ch2.vault.stakeVal a c = ch.vault.stakeVal a c ∧
      (ch2.token a).balances c = (ch.token a).balances c := by
  have hmm : req % W64 % W64 = req % W64 := Nat.mod_mod_of_dvd req dvd_rfl
  have hsv1 : (stakeBody ch.vault c a req (req % W64)).stakeVal a c
      = ch.vault.stakeVal a c + req % W64 := by
    rw [stakeBody_stakeVal ch.vault c a req (req % W64) hwf, hmm,
      Nat.mod_eq_of_lt hstake]
  have hwf1 : Wf (stakeBody ch.vault c a req (req % W64)) :=
    wf_stakeBody ch.vault c a req (req % W64) hwf
  have hw : withdrawValOf (stakeBody ch.vault c a req (req % W64)) c a req
      = req % W64 := by
    unfold withdrawValOf
    rw [hsv1, if_pos (by omega)]
  refine ⟨_, _, rfl, rfl, ?_, ?_⟩
  · simp only [Chain.withVault_vault, Chain.withVault_token, Chain.setToken_token]
    simp [TokenState.transfer, Function.update_apply, hbal, hc, Ne.symm hc, hw,
      Nat.mod_eq_of_lt hvw]
    rw [unstakeBody_stakeVal _ c a req (req % W64) hwf1, hsv1]
    split_ifs <;> omega
  · simp only [Chain.withVault_vault, Chain.withVault_token, Chain.setToken_token]
    simp [TokenState.transfer, Function.update_apply, hbal, hc, Ne.symm hc, hw,
      Nat.mod_eq_of_lt hvw]
    exact Nat.mod_eq_of_lt hcw

/-- A concrete chain used to witness C6: a fresh vault and an account `5`
holding 1,000,000 token units (the faucet scenario). -/
def rtChain : Chain :=
  { vault := initialVault,
    meth := { balances := fun x => if x = 5 then 1000000 else 0 },
    musdt := { balances := fun _ => 0 } }

/-- Witness for C6 at a concrete input: stake 500,000 then unstake
500,000. -/
theorem stake_unstake_roundtrip_witness :
    ∃ ch1 ch2,
      fullStake rtChain 5 Asset.METH true true 500000 = Except.ok ch1 ∧
      fullUnstake ch1 5 Asset.METH true 500000 = Except.ok ch2 ∧
      ch2.vault.stakeVal Asset.METH 5 = rtChain.vault.stakeVal Asset.METH 5 ∧
      (ch2.token Asset.METH).balances 5 = (rtChain.token Asset.METH).balances 5 :=
  stake_unstake_roundtrip rtChain 5 Asset.METH 500000 wf_initialVault
    (by decide) (by decide) (by decide) (by decide) (by decide)

/-- The `msg.sender` of an operation. -/
def Op.caller : Op → Addr
  | Op.stake c _ _ _ _ _ => c
  | Op.unstake c _ _ _ _ => c

/-- The asset argument of an operation. -/
def Op.asset : Op → Asset
  | Op.stake _ a _ _ _ _ => a
  | Op.unstake _ a _ _ _ => a

/-- C9: a `stake` or `unstake` call writes only the `(caller, asset)`
stake slot and that asset's total: every other stake position (other
accounts, or the caller's position for the other asset class) and the
other asset's total keep both their stored handle and their decrypted
value. -/
theorem step_frame (s : VaultState) (op : Op) (hwf : Wf s) (a2 : Asset) (c2 : Addr) :
    (¬(a2 = op.asset ∧ c2 = op.caller) →
      (step s op).getStakeHandle a2 c2 = s.getStakeHandle a2 c2 ∧
      (step s op).stakeVal a2 c2 = s.stakeVal a2 c2) ∧
    (a2 ≠ op.asset →
      (step s op).getTotalHandle a2 = s.getTotalHandle a2 ∧
      (step s op).totalVal a2 = s.totalVal a2) := by
  cases op with
  | stake c a isOp proofOk req moved =>
    rcases isOp with _ | _ <;> rcases proofOk with _ | _
    · exact ⟨fun _ => ⟨rfl, rfl⟩, fun _ => ⟨rfl, rfl⟩⟩
    · exact ⟨fun _ => ⟨rfl, rfl⟩, fun _ => ⟨rfl, rfl⟩⟩
    · exact ⟨fun _ => ⟨rfl, rfl⟩, fun _ => ⟨rfl, rfl⟩⟩
    · refine ⟨fun hne => ⟨?_, ?_⟩, fun hna => ⟨?_, ?_⟩⟩
      · simp only [Op.asset, Op.caller] at hne
        rw [show step s (Op.stake c a true true req moved)
            = stakeBody s c a req moved from rfl,
          stakeBody_getStakeHandle, if_neg hne]
      · exact stakeBody_stakeVal_frame s c a req moved hwf a2 c2 hne
      · simp only [Op.asset] at hna
        rw [show step s (Op.stake c a true true req moved)
            = stakeBody s c a req moved from rfl,
          stakeBody_getTotalHandle, if_neg hna]
      · exact stakeBody_totalVal_frame s c a req moved hwf a2 hna
  | unstake c a proofOk req sent =>
    rcases proofOk with _ | _
    · exact ⟨fun _ => ⟨rfl, rfl⟩, fun _ => ⟨rfl, rfl⟩⟩
    · refine ⟨fun hne => ⟨?_, ?_⟩, fun hna => ⟨?_, ?_⟩⟩
      · simp only [Op.asset, Op.caller] at hne
        rw [show step s (Op.unstake c a true req sent)
            = unstakeBody s c a req sent from rfl,
          unstakeBody_getStakeHandle, if_neg hne]
      · exact unstakeBody_stakeVal_frame s c a req sent hwf a2 c2 hne
      · simp only [Op.asset] at hna
        rw [show step s (Op.unstake c a true req sent)
            = unstakeBody s c a req sent from rfl,
          unstakeBody_getTotalHandle, if_neg hna]
      · exact unstakeBody_totalVal_frame s c a req sent hwf a2 hna

/-- Witness for C9 at a concrete input: a stake by account 5 on mETH
leaves account 6's mETH position and the mUSDT total untouched. -/
theorem step_frame_witness :
    (step initialVault (Op.stake 5 Asset.METH true true 7 7)).stakeVal Asset.METH 6
      = initialVault.stakeVal Asset.METH 6 ∧
    (step initialVault (Op.stake 5 Asset.METH true true 7 7)).totalVal Asset.MUSDT
      = initialVault.totalVal Asset.MUSDT :=
  ⟨((step_frame initialVault (Op.stake 5 Asset.METH true true 7 7)
      wf_initialVault Asset.METH 6).1 (by decide)).2,
   ((step_frame initialVault (Op.stake 5 Asset.METH true true 7 7)
      wf_initialVault Asset.MUSDT 6).2 (by decide)).2⟩

/-! ## Access-control invariants -/

/-- Grants added by an operation only concern freshly allocated handles:
the ACL entries of any previously allocated handle are untouched by the
`stake` body. -/
theorem stakeBody_acl_old (s : VaultState) (c : Addr) (a : Asset) (req moved : Nat)
    (h2 : Nat) (hlt : h2 < s.fhe.next) (p : Addr) :
    (stakeBody s c a req moved).fhe.acl h2 p = s.fhe.acl h2 p := by
  rw [stakeBody_fhe_acl]
  split_ifs <;> first | rfl | omega

/-- ACL entries of previously allocated handles are untouched by the
`unstake` body. -/
theorem unstakeBody_acl_old (s : VaultState) (c : Addr) (a : Asset) (req sent : Nat)
    (h2 : Nat) (hlt : h2 < s.fhe.next) (p : Addr) :
    (unstakeBody s c a req sent).fhe.acl h2 p = s.fhe.acl h2 p := by
  rw [unstakeBody_fhe_acl]
  split_ifs <;> first | rfl | omega

/-- The grant discipline on storage: every written (non-reserved) stake
handle carries decrypt grants for the vault and for the owning account,
and every written total handle carries a decrypt grant for the vault. -/
def AclInv (s : VaultState) : Prop :=
  (∀ a c, s.getStakeHandle a c ≠ 0 →
    s.fhe.acl (s.getStakeHandle a c) vaultAddr = true ∧
    s.fhe.acl (s.getStakeHandle a c) c = true) ∧
  (∀ a, s.getTotalHandle a ≠ 0 →
    s.fhe.acl (s.getTotalHandle a) vaultAddr = true)

/-- Total-handle confidentiality: no principal other than the vault holds
a decrypt grant on a stored total handle. -/
def TotalOnlyVault (s : VaultState) : Prop :=
  ∀ a p, p ≠ vaultAddr → s.fhe.acl (s.getTotalHandle a) p = false

theorem aclInv_stakeBody (s : VaultState) (c : Addr) (a : Asset) (req moved : Nat)
    (hwf : Wf s) (hinv : AclInv s) : AclInv (stakeBody s c a req moved) := by
  obtain ⟨h1, h0, hsk, htt, hacl, hval⟩ := hwf
  obtain ⟨hstk, htot⟩ := hinv
  constructor
  · intro a2 c2 hne
    rw [stakeBody_getStakeHandle] at hne ⊢
    by_cases hcase : a2 = a ∧ c2 = c
    · rw [if_pos hcase] at hne ⊢
      rw [stakeBody_fhe_acl, stakeBody_fhe_acl]
      have hn := h1
      constructor
      · rw [if_neg (by omega), if_pos ⟨rfl, Or.inl rfl⟩]
      · rw [if_neg (by omega), if_pos ⟨rfl, Or.inr hcase.2⟩]
    · rw [if_neg hcase] at hne ⊢
      have hlt := hsk a2 c2
      rw [stakeBody_acl_old s c a req moved _ hlt,
        stakeBody_acl_old s c a req moved _ hlt]
      exact hstk a2 c2 hne
  · intro a2 hne
    rw [stakeBody_getTotalHandle] at hne ⊢
    by_cases hcase : a2 = a
    · rw [if_pos hcase] at hne ⊢
      rw [stakeBody_fhe_acl]
      rw [if_neg (by omega), if_neg (by omega), if_pos ⟨rfl, rfl⟩]
    · rw [if_neg hcase] at hne ⊢
      rw [stakeBody_acl_old s c a req moved _ (htt a2)]
      exact htot a2 hne

theorem aclInv_unstakeBody (s : VaultState) (c : Addr) (a : Asset) (req sent : Nat)
    (hwf : Wf s) (hinv : AclInv s) : AclInv (unstakeBody s c a req sent) := by
  obtain ⟨h1, h0, hsk, htt, hacl, hval⟩ := hwf
  obtain ⟨hstk, htot⟩ := hinv
  constructor
  · intro a2 c2 hne
    rw [unstakeBody_getStakeHandle] at hne ⊢
    by_cases hcase : a2 = a ∧ c2 = c
    · rw [if_pos hcase] at hne ⊢
      rw [unstakeBody_fhe_acl, unstakeBody_fhe_acl]
      constructor
      · rw [if_pos ⟨rfl, Or.inl rfl⟩]
      · rw [if_pos ⟨rfl, Or.inr hcase.2⟩]
    · rw [if_neg hcase] at hne ⊢
      have hlt := hsk a2 c2
      rw [unstakeBody_acl_old s c a req sent _ hlt,
        unstakeBody_acl_old s c a req sent _ hlt]
      exact hstk a2 c2 hne
  · intro a2 hne
    rw [unstakeBody_getTotalHandle] at hne ⊢
    by_cases hcase : a2 = a
    · rw [if_pos hcase] at hne ⊢
      rw [unstakeBody_fhe_acl]
      rw [if_neg (by omega), if_neg (by omega), if_pos ⟨rfl, rfl⟩]
    · rw [if_neg hcase] at hne ⊢
      rw [unstakeBody_acl_old s c a req sent _ (htt a2)]
      exact htot a2 hne

theorem aclInv_step (s : VaultState) (op : Op) (hwf : Wf s) (hinv : AclInv s) :
    AclInv (step s op) := by
  cases op with
  | stake c a isOp proofOk req moved =>
    rcases isOp with _ | _ <;> rcases proofOk with _ | _ <;>
      first
        | exact hinv
        | exact aclInv_stakeBody s c a req moved hwf hinv
  | unstake c a proofOk req sent =>
    rcases proofOk with _ | _ <;>
      first
        | exact hinv
        | exact aclInv_unstakeBody s c a req sent hwf hinv

theorem aclInv_runOps (s : VaultState) (ops : List Op) (hwf : Wf s)
    (hinv : AclInv s) : AclInv (runOps s ops) := by
  induction ops generalizing s with
  | nil => exact hinv
  | cons op rest ih =>
    exact ih (step s op) (wf_step s op hwf) (aclInv_step s op hwf hinv)

theorem aclInv_initialVault : AclInv initialVault := by
  constructor
  · intro a c hne
    cases a <;> exact absurd rfl hne
  · intro a hne
    cases a <;> exact absurd rfl hne

/-- C8: in every reachable state, every value written into stake-position
storage carries decrypt grants for both the vault contract and the owning
account, and every value written into asset-total storage carries a
decrypt grant for the vault contract (the grant calls accompany every
write in `_updateStakeStorage`, `_increaseTotal` and `_decreaseTotal`;
a slot still holding the reserved handle `0` was never written). -/
theorem storage_write_grants (ops : List Op) : AclInv (runOps initialVault ops) :=
  aclInv_runOps initialVault ops wf_initialVault aclInv_initialVault

theorem totalOnlyVault_stakeBody (s : VaultState) (c : Addr) (a : Asset)
    (req moved : Nat) (hwf : Wf s) (hinv : TotalOnlyVault s) :
    TotalOnlyVault (stakeBody s c a req moved) := by
  obtain ⟨h1, h0, hsk, htt, hacl, hval⟩ := hwf
  intro a2 p hp
  rw [stakeBody_getTotalHandle]
  by_cases hcase : a2 = a
  · rw [if_pos hcase, stakeBody_fhe_acl]
    rw [if_neg (by omega), if_neg (by omega), if_neg (fun h => hp h.2)]
    exact hacl _ p (by omega)
  · rw [if_neg hcase, stakeBody_acl_old s c a req moved _ (htt a2)]
    exact hinv a2 p hp

theorem totalOnlyVault_unstakeBody (s : VaultState) (c : Addr) (a : Asset)
    (req sent : Nat) (hwf : Wf s) (hinv : TotalOnlyVault s) :
    TotalOnlyVault (unstakeBody s c a req sent) := by
  obtain ⟨h1, h0, hsk, htt, hacl, hval⟩ := hwf
  intro a2 p hp
  rw [unstakeBody_getTotalHandle]
  by_cases hcase : a2 = a
  · rw [if_pos hcase, unstakeBody_fhe_acl]
    rw [if_neg (by omega), if_neg (by omega), if_neg (fun h => hp h.2)]
    exact hacl _ p (by omega)
  · rw [if_neg hcase, unstakeBody_acl_old s c a req sent _ (htt a2)]
    exact hinv a2 p hp

theorem totalOnlyVault_step (s : VaultState) (op : Op) (hwf : Wf s)
    (hinv : TotalOnlyVault s) : TotalOnlyVault (step s op) := by
  cases op with
  | stake c a isOp proofOk req moved =>
    rcases isOp with _ | _ <;> rcases proofOk with _ | _ <;>
      first
        | exact hinv
        | exact totalOnlyVault_stakeBody s c a req moved hwf hinv
  | unstake c a proofOk req sent =>
    rcases proofOk with _ | _ <;>
      first
        | exact hinv
        | exact totalOnlyVault_unstakeBody s c a req sent hwf hinv

theorem totalOnlyVault_runOps (s : VaultState) (ops : List Op) (hwf : Wf s)
    (hinv : TotalOnlyVault s) : TotalOnlyVault (runOps s ops) := by
  induction ops generalizing s with
  | nil => exact hinv
  | cons op rest ih =>
    exact ih (step s op) (wf_step s op hwf) (totalOnlyVault_step s op hwf hinv)

/-- C10: in every reachable state, the handle returned by
`getTotalStaked` carries no decrypt permission for any principal other
than the vault contract itself: total ciphertexts are only ever granted
via `FHE.allowThis`. -/
theorem total_handle_vault_only (ops : List Op) (a : Asset) (p : Addr)
    (hp : p ≠ vaultAddr) :
    (runOps initialVault ops).fhe.acl
      ((runOps initialVault ops).getTotalHandle a) p = false :=
  totalOnlyVault_runOps initialVault ops wf_initialVault
    (fun a2 p2 _ => by cases a2 <;> rfl) a p hp

/-- Witness for C10 at a concrete input: after a stake and an unstake,
account 5 cannot decrypt the mETH total. -/
theorem total_handle_vault_only_witness :
    (runOps initialVault [Op.stake 5 Asset.METH true true 7 7,
        Op.unstake 5 Asset.METH true 3 3]).fhe.acl
      ((runOps initialVault [Op.stake 5 Asset.METH true true 7 7,
        Op.unstake 5 Asset.METH true 3 3]).getTotalHandle Asset.METH) 5 = false :=
  total_handle_vault_only [Op.stake 5 Asset.METH true true 7 7,
    Op.unstake 5 Asset.METH true 3 3] Asset.METH 5 (by decide)

/-! ## The total-equals-sum-of-stakes invariant -/

/-- The sum of the decrypted stakes of the accounts in `S` for one asset
class. -/
def stakeSum (s : VaultState) (S : Finset Addr) (a : Asset) : Nat :=
  ∑ c in S, s.stakeVal a c

/-- `SumInv s S`: each asset total decrypts to the sum of the stakes of
the accounts in `S` (accounts outside `S` are assumed untouched). -/
def SumInv (s : VaultState) (S : Finset Addr) : Prop :=
  ∀ a, s.totalVal a = stakeSum s S a

/-- An operation is benign for the invariant: its caller lies in `S`,
the token reports exactly the amount the vault asked it to move on
withdrawals, and crediting a deposit does not overflow 64 bits. Reverted
calls are always benign. -/
def goodOp (s : VaultState) (S : Finset Addr) : Op → Bool
  | Op.stake c a isOp proofOk _req moved =>
    !(isOp && proofOk) ||
      (decide (c ∈ S) && decide (s.totalVal a + moved % W64 < W64))
  | Op.unstake c a proofOk req sent =>
    !proofOk || (decide (c ∈ S) && decide (sent % W64 = withdrawValOf s c a req))

/-- A benign trace: every operation is benign in the state it runs in. -/
def goodOps (s : VaultState) (S : Finset Addr) : List Op → Bool
  | [] => true
  | op :: rest => goodOp s S op && goodOps (step s op) S rest

theorem sumInv_stakeBody (s : VaultState) (S : Finset Addr) (c : Addr) (a : Asset)
    (req moved : Nat) (hwf : Wf s) (hc : c ∈ S)
    (hov : s.totalVal a + moved % W64 < W64) (hinv : SumInv s S) :
    SumInv (stakeBody s c a req moved) S := by
  intro a2
  by_cases hcase : a2 = a
  · subst hcase
    have hle : s.stakeVal a2 c ≤ stakeSum s S a2 :=
      Finset.single_le_sum (fun i _ => Nat.zero_le _) hc
    have htots := hinv a2
    have hupd : ∀ x ∈ S, (stakeBody s c a2 req moved).stakeVal a2 x
        = Function.update (s.stakeVal a2) c
            (s.stakeVal a2 c + moved % W64) x := by
      intro x hx
      by_cases hxc : x = c
      · subst hxc
        rw [Function.update_same, stakeBody_stakeVal s x a2 req moved hwf,
          Nat.mod_eq_of_lt (by omega)]
      · rw [Function.update_noteq hxc]
        exact stakeBody_stakeVal_frame s c a2 req moved hwf a2 x (fun h => hxc h.2)
    have hsum : stakeSum (stakeBody s c a2 req moved) S a2
        = stakeSum s S a2 + moved % W64 := by
      unfold stakeSum
      rw [Finset.sum_congr rfl hupd, Finset.sum_update_of_mem hc,
        Finset.sdiff_singleton_eq_erase]
      have hadd := Finset.add_sum_erase S (s.stakeVal a2) hc
      omega
    rw [stakeBody_totalVal s c a2 req moved hwf, hsum, htots,
      Nat.mod_eq_of_lt (by omega)]
  · rw [stakeBody_totalVal_frame s c a req moved hwf a2 hcase, hinv a2]
    unfold stakeSum
    exact Finset.sum_congr rfl (fun x hx =>
      (stakeBody_stakeVal_frame s c a req moved hwf a2 x (fun h => hcase h.1)).symm)

theorem sumInv_unstakeBody (s : VaultState) (S : Finset Addr) (c : Addr) (a : Asset)
    (req sent : Nat) (hwf : Wf s) (hc : c ∈ S)
    (hsent : sent % W64 = withdrawValOf s c a req) (hinv : SumInv s S) :
    SumInv (unstakeBody s c a req sent) S := by
  intro a2
  by_cases hcase : a2 = a
  · subst hcase
    have hle : s.stakeVal a2 c ≤ stakeSum s S a2 :=
      Finset.single_le_sum (fun i _ => Nat.zero_le _) hc
    have htots := hinv a2
    by_cases hsuff : req % W64 ≤ s.stakeVal a2 c
    · have hw : withdrawValOf s c a2 req = req % W64 := by
        unfold withdrawValOf
        rw [if_pos hsuff]
      have hupd : ∀ x ∈ S, (unstakeBody s c a2 req sent).stakeVal a2 x
          = Function.update (s.stakeVal a2) c
              (s.stakeVal a2 c - req % W64) x := by
        intro x hx
        by_cases hxc : x = c
        · subst hxc
          rw [Function.update_same, unstakeBody_stakeVal s x a2 req sent hwf,
            if_pos hsuff]
        · rw [Function.update_noteq hxc]
          exact unstakeBody_stakeVal_frame s c a2 req sent hwf a2 x
            (fun h => hxc h.2)
      have hsum : stakeSum (unstakeBody s c a2 req sent) S a2
          = stakeSum s S a2 - req % W64 := by
        unfold stakeSum
        rw [Finset.sum_congr rfl hupd, Finset.sum_update_of_mem hc,
          Finset.sdiff_singleton_eq_erase]
        have hadd := Finset.add_sum_erase S (s.stakeVal a2) hc
        omega
      rw [unstakeBody_totalVal s c a2 req sent hwf, hsum, htots,
        if_pos (by rw [hsent, hw]; omega), hsent, hw]
    · have hw : withdrawValOf s c a2 req = 0 := by
        unfold withdrawValOf
        rw [if_neg hsuff]
      have hsum : stakeSum (unstakeBody s c a2 req sent) S a2
          = stakeSum s S a2 := by
        unfold stakeSum
        refine Finset.sum_congr rfl (fun x hx => ?_)
        by_cases hxc : x = c
        · subst hxc
          rw [unstakeBody_stakeVal s x a2 req sent hwf, if_neg hsuff]
        · rw [unstakeBody_stakeVal_frame s c a2 req sent hwf a2 x
            (fun h => hxc h.2)]
      rw [unstakeBody_totalVal s c a2 req sent hwf, hsum, htots,
        if_pos (by rw [hsent, hw]; omega), hsent, hw, Nat.sub_zero]
  · rw [unstakeBody_totalVal_frame s c a req sent hwf a2 hcase, hinv a2]
    unfold stakeSum
    exact Finset.sum_congr rfl (fun x hx =>
      (unstakeBody_stakeVal_frame s c a req sent hwf a2 x (fun h => hcase h.1)).symm)

theorem sumInv_step (s : VaultState) (S : Finset Addr) (op : Op) (hwf : Wf s)
    (hop : goodOp s S op = true) (hinv : SumInv s S) : SumInv (step s op) S := by
  cases op with
  | stake c a isOp proofOk req moved =>
    rcases isOp with _ | _ <;> rcases proofOk with _ | _
    · exact hinv
    · exact hinv
    · exact hinv
    · simp only [goodOp, Bool.and_self, Bool.not_true, Bool.false_or,
        Bool.and_eq_true, decide_eq_true_eq] at hop
      exact sumInv_stakeBody s S c a req moved hwf hop.1 hop.2 hinv
  | unstake c a proofOk req sent =>
    rcases proofOk with _ | _
    · exact hinv
    · simp only [goodOp, Bool.not_true, Bool.false_or, Bool.and_eq_true,
        decide_eq_true_eq] at hop
      exact sumInv_unstakeBody s S c a req sent hwf hop.1 hop.2 hinv

theorem sumInv_runOps (s : VaultState) (S : Finset Addr) (ops : List Op)
    (hwf : Wf s) (hgood : goodOps s S ops = true) (hinv : SumInv s S) :
    SumInv (runOps s ops) S := by
  induction ops generalizing s with
  | nil => exact hinv
  | cons op rest ih =>
    rw [goodOps, Bool.and_eq_true] at hgood
    exact ih (step s op) (wf_step s op hwf) hgood.2
      (sumInv_step s S op hwf hgood.1 hinv)

theorem sumInv_initialVault (S : Finset Addr) : SumInv initialVault S := by
  intro a
  unfold stakeSum
  rw [Finset.sum_congr rfl (fun x hx => ?_), Finset.sum_const_zero]
  · cases a <;> rfl
  · cases a <;> rfl

/-- C2 fails on the code as stated: with a token whose reported sent
amount differs from the requested one, an unstake decreases the stake by
the requested amount but the total by the reported amount. Account 5
stakes 5 (faithfully moved), then unstakes 3 while the token reports 0
actually sent: the stored total decrypts to 5 but the stakes sum to 2. -/
theorem total_neq_sum_counterexample :
    (runOps initialVault [Op.stake 5 Asset.METH true true 5 5,
        Op.unstake 5 Asset.METH true 3 0]).totalVal Asset.METH = 5 ∧
    stakeSum (runOps initialVault [Op.stake 5 Asset.METH true true 5 5,
        Op.unstake 5 Asset.METH true 3 0]) (Finset.range 10) Asset.METH = 2 := by
  constructor <;> decide

/-- C2 (amended): for every trace in which the token's reported amounts
equal the amounts the vault asked it to move and deposits do not overflow
64 bits, the decrypted asset total equals the sum of the decrypted stakes
over any account set `S` containing the callers. -/
theorem total_eq_sum_of_faithful (ops : List Op) (S : Finset Addr)
    (hgood : goodOps initialVault S ops = true) (a : Asset) :
    (runOps initialVault ops).totalVal a
      = stakeSum (runOps initialVault ops) S a :=
  sumInv_runOps initialVault S ops wf_initialVault hgood (sumInv_initialVault S) a

/-- Witness for the amended C2 at a concrete faithful trace. -/
theorem total_eq_sum_of_faithful_witness :
    (runOps initialVault [Op.stake 5 Asset.METH true true 5 5,
        Op.unstake 5 Asset.METH true 3 3]).totalVal Asset.METH
      = stakeSum (runOps initialVault [Op.stake 5 Asset.METH true true 5 5,
        Op.unstake 5 Asset.METH true 3 3]) (Finset.range 10) Asset.METH :=
  total_eq_sum_of_faithful [Op.stake 5 Asset.METH true true 5 5,
    Op.unstake 5 Asset.METH true 3 3] (Finset.range 10) (by decide) Asset.METH

end NebulaVault
